import Mathlib

/-!
Shallow embedding of `update.py` (ActivityWatch history updater).

Timestamps and durations are modelled as integers (whole seconds), matching
the integer-second sweep of the program.  Python `None` becomes `Option`,
the per-event `data` dict becomes a structure of optional fields (absent key
= `none` / `false`, mirroring `dict.get` defaults), and runtime exceptions
(TypeError / ValueError / AssertionError) become explicit error values.
-/

namespace Update

/-- The `data` dict of an event.  `data.get(key)` on a missing key yields
`None` in Python, hence `Option` fields; `data.get("audible", False)` and
truthiness of `incognito` make those two `Bool` with default `false`. -/
structure EventData where
  app : Option String := none
  title : Option String := none
  status : Option String := none
  url : Option String := none
  incognito : Bool := false
  audible : Bool := false
  deriving Repr, DecidableEq

/-- An aw event: timestamp, duration (both in whole seconds) and data. -/
structure Event where
  timestamp : Int
  duration : Int
  data : EventData
  deriving Repr, DecidableEq

/-- One source series: events plus the mutable cursor `data_pos`
(class `BucketData` in the source; `data_pos` starts at 0). -/
structure BucketData where
  events : List Event
  dataPos : Nat := 0
  deriving Repr, DecidableEq

/-- Insert an event into an already sorted-by-timestamp list, keeping
stability (earlier elements with equal timestamp stay in front). -/
def insertByTs (e : Event) : List Event → List Event
  | [] => [e]
  | x :: xs => if e.timestamp ≤ x.timestamp then e :: x :: xs else x :: insertByTs e xs

/-- Model of `sorted(events, key=lambda e: e.timestamp)` — stable insertion sort. -/
def sortByTs : List Event → List Event
  | [] => []
  | x :: xs => insertByTs x (sortByTs xs)

/-- Model of `BucketData.get_first_ts`: `None` when empty, else first timestamp. -/
def getFirstTs (b : BucketData) : Option Int :=
  b.events.head?.map (fun e => e.timestamp)

/-- Model of `BucketData.get_total_duration`: 0 when empty, else
`last.timestamp + last.duration - first.timestamp`. -/
def getTotalDuration (b : BucketData) : Int :=
  match b.events.head?, b.events.getLast? with
  | some f, some l => l.timestamp + l.duration - f.timestamp
  | _, _ => 0

/-- The cursor-advance `while` loop of `get_by_timestamp`, with explicit
fuel (`events.length` steps always suffice: each iteration moves the
cursor one step right and it never passes the last index). -/
def advanceFuel (events : List Event) (ts : Int) : Nat → Nat → Nat
  | 0, pos => pos
  | fuel + 1, pos =>
    if h : pos + 1 < events.length then
      if (events.get ⟨pos + 1, h⟩).timestamp < ts then
        advanceFuel events ts fuel (pos + 1)
      else pos
    else pos

/-- Advance the cursor while the next event starts strictly before `ts`
(the loop breaks on `next_ev.timestamp >= timestamp`). -/
def advance (events : List Event) (ts : Int) (pos : Nat) : Nat :=
  advanceFuel events ts events.length pos

theorem advanceFuel_lt (events : List Event) (ts : Int) :
    ∀ fuel pos, pos < events.length → advanceFuel events ts fuel pos < events.length := by
  intro fuel
  induction fuel with
  | zero => intro pos h; simpa [advanceFuel] using h
  | succ n ih =>
    intro pos h
    unfold advanceFuel
    split
    · split
      · exact ih _ (by omega)
      · exact h
    · exact h

theorem advance_lt (events : List Event) (ts : Int) (pos : Nat)
    (h : pos < events.length) : advance events ts pos < events.length :=
  advanceFuel_lt events ts events.length pos h

/-- The cursor reset of `get_by_timestamp`:
`if data_pos >= len(events) or events[data_pos].timestamp > ts: data_pos = 0`. -/
def resetPos0 (b : BucketData) (ts : Int) : Nat :=
  if h : b.dataPos < b.events.length then
    if (b.events.get ⟨b.dataPos, h⟩).timestamp > ts then 0 else b.dataPos
  else 0

/-- Model of `BucketData.get_by_timestamp`: returns the located event (or `none`
after the expiry check) together with the updated series state.  The
located index is always in range, so the `getD` default `e0` is unused. -/
def getByTimestamp (b : BucketData) (ts : Int) (useDuration : Bool) :
    Option Event × BucketData :=
  match b.events with
  | [] => (none, b)
  | e0 :: _ =>
    let p := advance b.events ts (resetPos0 b ts)
    let ev := b.events.getD p e0
    ((if useDuration && decide (ts > ev.timestamp + ev.duration) then none else some ev),
     { events := b.events, dataPos := p })

/-- Executable check that events are sorted ascending by timestamp
(the invariant `BucketData.load` establishes via `sorted`). -/
def isSortedTs : List Event → Bool
  | [] => true
  | [_] => true
  | a :: b :: rest => decide (a.timestamp ≤ b.timestamp) && isSortedTs (b :: rest)

theorem isSortedTs_cons :
    ∀ {a : Event} {l : List Event}, isSortedTs (a :: l) = true →
      isSortedTs l = true ∧ ∀ x ∈ l, a.timestamp ≤ x.timestamp := by
  intro a l
  induction l generalizing a with
  | nil => intro _; exact ⟨rfl, by simp⟩
  | cons b rest ih =>
    intro h
    have h1 : a.timestamp ≤ b.timestamp ∧ isSortedTs (b :: rest) = true := by
      simpa [isSortedTs] using h
    have h2 := ih h1.2
    refine ⟨h1.2, ?_⟩
    intro x hx
    rcases List.mem_cons.mp hx with rfl | hx
    · exact h1.1
    · exact le_trans h1.1 (h2.2 x hx)

theorem isSortedTs_le {l : List Event} (hs : isSortedTs l = true) :
    ∀ (i j : Nat) (hi : i < l.length) (hj : j < l.length), i ≤ j →
      (l.get ⟨i, hi⟩).timestamp ≤ (l.get ⟨j, hj⟩).timestamp := by
  induction l with
  | nil => intro i j hi _ _; exact absurd hi (by simp)
  | cons a rest ih =>
    intro i j hi hj hij
    have hc := isSortedTs_cons hs
    match i, j with
    | 0, 0 => exact le_refl _
    | 0, j + 1 =>
      exact hc.2 _ (List.get_mem rest j (by simpa using hj))
    | i + 1, 0 => omega
    | i + 1, j + 1 =>
      exact ih hc.1 i j (by simpa using hi) (by simpa using hj) (by omega)

/-- Number of events starting strictly before `ts` — for a sorted series
these form a prefix, and the advance loop stops at the last of them. -/
def cntBefore (ts : Int) : List Event → Nat
  | [] => 0
  | e :: rest => if e.timestamp < ts then cntBefore ts rest + 1 else 0

theorem cntBefore_le (ts : Int) : ∀ l : List Event, cntBefore ts l ≤ l.length := by
  intro l
  induction l with
  | nil => simp [cntBefore]
  | cons e rest ih =>
    simp only [cntBefore, List.length_cons]
    split <;> omega

theorem cntBefore_lt_ts (ts : Int) :
    ∀ (l : List Event) (i : Nat) (hi : i < l.length), i < cntBefore ts l →
      (l.get ⟨i, hi⟩).timestamp < ts := by
  intro l
  induction l with
  | nil => intro i hi _; exact absurd hi (by simp)
  | cons e rest ih =>
    intro i hi hcnt
    simp only [cntBefore] at hcnt
    by_cases he : e.timestamp < ts
    · simp only [if_pos he] at hcnt
      match i with
      | 0 => exact he
      | i + 1 => exact ih i (by simpa using hi) (by omega)
    · simp only [if_neg he] at hcnt; omega

theorem cntBefore_not_lt (ts : Int) :
    ∀ (l : List Event) (h : cntBefore ts l < l.length),
      ¬ (l.get ⟨cntBefore ts l, h⟩).timestamp < ts := by
  intro l
  induction l with
  | nil => intro h; exact absurd h (by simp)
  | cons e rest ih =>
    intro h
    by_cases he : e.timestamp < ts
    · have hc : cntBefore ts (e :: rest) = cntBefore ts rest + 1 := by
        simp [cntBefore, he]
      have h' : cntBefore ts rest < rest.length := by
        simp only [hc, List.length_cons] at h; omega
      have := ih h'
      simpa [hc] using this
    · have hc : cntBefore ts (e :: rest) = 0 := by simp [cntBefore, he]
      simpa [hc] using he

theorem lt_cntBefore {l : List Event} (hs : isSortedTs l = true) (ts : Int)
    (i : Nat) (hi : i < l.length) (h : (l.get ⟨i, hi⟩).timestamp < ts) :
    i < cntBefore ts l := by
  by_contra hle
  have hk : cntBefore ts l ≤ i := by omega
  have hkl : cntBefore ts l < l.length := lt_of_le_of_lt hk hi
  have h1 := cntBefore_not_lt ts l hkl
  have h2 := isSortedTs_le hs (cntBefore ts l) i hkl hi hk
  omega

theorem advanceFuel_eq {l : List Event} (ts : Int) (hs : isSortedTs l = true) :
    ∀ (fuel pos : Nat), pos < l.length →
      (pos = 0 ∨ ∃ h : pos < l.length, (l.get ⟨pos, h⟩).timestamp < ts) →
      cntBefore ts l ≤ fuel + pos + 1 →
      advanceFuel l ts fuel pos = cntBefore ts l - 1 := by
  intro fuel
  induction fuel with
  | zero =>
    intro pos _ hv hfuel
    simp only [advanceFuel]
    rcases hv with rfl | ⟨h, hlt⟩
    · omega
    · have := lt_cntBefore hs ts pos h hlt
      omega
  | succ n ih =>
    intro pos hpos hv hfuel
    simp only [advanceFuel]
    split
    · rename_i h1
      by_cases h2 : (l.get ⟨pos + 1, h1⟩).timestamp < ts
      · rw [if_pos h2]
        exact ih (pos + 1) h1 (Or.inr ⟨h1, h2⟩) (by omega)
      · rw [if_neg h2]
        have hk1 : cntBefore ts l ≤ pos + 1 := by
          by_contra hgt
          exact h2 (cntBefore_lt_ts ts l (pos + 1) h1 (by omega))
        rcases hv with rfl | ⟨h, hlt⟩
        · omega
        · have := lt_cntBefore hs ts pos h hlt; omega
    · rename_i h1
      have hk1 : cntBefore ts l ≤ pos + 1 := by
        have := cntBefore_le ts l; omega
      rcases hv with rfl | ⟨h, hlt⟩
      · omega
      · have := lt_cntBefore hs ts pos h hlt; omega

/-- The index the from-scratch strict scan lands on: the last event
starting strictly before `ts`, or index 0 when there is none. -/
def scanIdx (l : List Event) (ts : Int) : Nat := cntBefore ts l - 1

theorem scanIdx_lt {l : List Event} (hne : l ≠ []) (ts : Int) :
    scanIdx l ts < l.length := by
  have h1 := cntBefore_le ts l
  have h2 : 0 < l.length := List.length_pos.mpr hne
  unfold scanIdx; omega

/-- The event the scan locates. -/
def evAtScan (l : List Event) (ts : Int) (hne : l ≠ []) : Event :=
  l.get ⟨scanIdx l ts, scanIdx_lt hne ts⟩

/-- A cursor state from which `get_by_timestamp ts` behaves like a
from-scratch scan: anywhere except resting exactly on an event whose
timestamp equals `ts` (such states are unreachable under monotone
queries started at cursor 0). -/
def ValidFor (b : BucketData) (ts : Int) : Prop :=
  b.dataPos = 0 ∨ b.events.length ≤ b.dataPos ∨
    ∃ h : b.dataPos < b.events.length, (b.events.get ⟨b.dataPos, h⟩).timestamp ≠ ts

theorem getByTimestamp_eq (b : BucketData) (ts : Int) (u : Bool)
    (hs : isSortedTs b.events = true) (hne : b.events ≠ [])
    (hv : ValidFor b ts) :
    getByTimestamp b ts u =
      ((if u && decide (ts > (evAtScan b.events ts hne).timestamp +
            (evAtScan b.events ts hne).duration)
        then none else some (evAtScan b.events ts hne)),
       { events := b.events, dataPos := scanIdx b.events ts }) := by
  obtain ⟨events, pos⟩ := b
  match events, hne with
  | e0 :: rest, hne =>
  -- after the reset the cursor is 0 or rests on an event starting before ts
  have hv0 : resetPos0 ⟨e0 :: rest, pos⟩ ts = 0 ∨
      ∃ h : resetPos0 ⟨e0 :: rest, pos⟩ ts < (e0 :: rest).length,
        ((e0 :: rest).get ⟨resetPos0 ⟨e0 :: rest, pos⟩ ts, h⟩).timestamp < ts := by
    unfold resetPos0
    simp only
    split
    · rename_i hinr
      split
      · exact Or.inl rfl
      · rename_i hngt
        rcases hv with h0 | hout | ⟨h, hne'⟩
        · exact Or.inl h0
        · exact absurd hinr (not_lt.mpr hout)
        · have hcast : ((e0 :: rest).get ⟨pos, h⟩) = ((e0 :: rest).get ⟨pos, hinr⟩) := rfl
          rw [hcast] at hne'
          exact Or.inr ⟨hinr, by omega⟩
    · exact Or.inl rfl
  have hp0lt : resetPos0 ⟨e0 :: rest, pos⟩ ts < (e0 :: rest).length := by
    rcases hv0 with h0 | ⟨h, _⟩
    · simp [h0]
    · exact h
  have hadv : advance (e0 :: rest) ts (resetPos0 ⟨e0 :: rest, pos⟩ ts) =
      cntBefore ts (e0 :: rest) - 1 := by
    unfold advance
    exact advanceFuel_eq ts hs _ _ hp0lt hv0
      (le_trans (cntBefore_le ts (e0 :: rest)) (by omega))
  have hscan : scanIdx (e0 :: rest) ts < (e0 :: rest).length := scanIdx_lt hne ts
  have hgetD : (e0 :: rest).getD (cntBefore ts (e0 :: rest) - 1) e0 =
      evAtScan (e0 :: rest) ts hne := by
    have hsc : cntBefore ts (e0 :: rest) - 1 = scanIdx (e0 :: rest) ts := rfl
    rw [hsc, List.getD_eq_get?, List.get?_eq_get hscan]
    rfl
  simp only [getByTimestamp]
  rw [hadv, hgetD]
  rfl

/-- From-scratch re-scan: the same lookup run with the cursor reset to 0
(what the query would return without cursor acceleration). -/
def rescan (events : List Event) (ts : Int) (u : Bool) : Option Event :=
  (getByTimestamp { events := events, dataPos := 0 } ts u).1

/-- The scan the original claim describes: the greatest event whose
timestamp is ≤ ts (absent when there is none), then the expiry check. -/
def rescanLe (events : List Event) (ts : Int) (u : Bool) : Option Event :=
  match (events.filter (fun e => decide (e.timestamp ≤ ts))).getLast? with
  | none => none
  | some ev => if u && decide (ts > ev.timestamp + ev.duration) then none else some ev

/-- The last event starting strictly before `ts`. -/
def lastStartingBefore (events : List Event) (ts : Int) : Option Event :=
  (events.filter (fun e => decide (e.timestamp < ts))).getLast?

/-- The scan the amended claim describes: the last event whose timestamp
is strictly less than `ts` — the first event when there is none — then
the duration/expiry check. -/
def rescanStrict (events : List Event) (ts : Int) (u : Bool) : Option Event :=
  match events.head? with
  | none => none
  | some e0 =>
    let ev := (lastStartingBefore events ts).getD e0
    if u && decide (ts > ev.timestamp + ev.duration) then none else some ev

theorem filter_lt_eq_take (ts : Int) :
    ∀ l : List Event, isSortedTs l = true →
      l.filter (fun e => decide (e.timestamp < ts)) = l.take (cntBefore ts l) := by
  intro l
  induction l with
  | nil => intro _; rfl
  | cons a rest ih =>
    intro hs
    have hc := isSortedTs_cons hs
    by_cases ha : a.timestamp < ts
    · simp only [List.filter_cons, cntBefore, if_pos ha, List.take_succ_cons,
        decide_eq_true ha, if_true]
      rw [ih hc.1]
    · simp only [List.filter_cons, cntBefore, if_neg ha, decide_eq_false ha,
        List.take_zero, Bool.false_eq_true, if_false]
      rw [List.filter_eq_nil_iff]
      intro x hx
      have := hc.2 x hx
      simp only [decide_eq_true_eq]
      omega

theorem take_getLast (l : List Event) (k : Nat) (h0 : 0 < k) (hk : k ≤ l.length) :
    (l.take k).getLast? = some (l.get ⟨k - 1, by omega⟩) := by
  rw [List.getLast?_eq_getElem?]
  have hlen : (l.take k).length = k := by
    rw [List.length_take]; omega
  rw [hlen]
  rw [List.getElem?_take, if_pos (by omega : k - 1 < k)]
  rw [List.getElem?_eq_getElem (by omega)]
  rfl

theorem lastStartingBefore_eq_none {l : List Event} (ts : Int)
    (hs : isSortedTs l = true) (hk : cntBefore ts l = 0) :
    lastStartingBefore l ts = none := by
  unfold lastStartingBefore
  rw [filter_lt_eq_take ts l hs, hk]
  rfl

theorem lastStartingBefore_eq_some {l : List Event} (ts : Int)
    (hs : isSortedTs l = true) (hk : 0 < cntBefore ts l) :
    lastStartingBefore l ts =
      some (l.get ⟨cntBefore ts l - 1, by have := cntBefore_le ts l; omega⟩) := by
  unfold lastStartingBefore
  rw [filter_lt_eq_take ts l hs]
  exact take_getLast l (cntBefore ts l) hk (cntBefore_le ts l)

/-- On a sorted series the code's from-scratch scan computes exactly the
"last event starting strictly before ts, else the first event, then the
expiry check" of the amended claim. -/
theorem rescan_eq_rescanStrict (l : List Event) (ts : Int) (u : Bool)
    (hs : isSortedTs l = true) : rescan l ts u = rescanStrict l ts u := by
  cases hl : l with
  | nil => rfl
  | cons e0 rest =>
    subst hl
    have hne : (e0 :: rest) ≠ [] := by simp
    unfold rescan
    rw [getByTimestamp_eq ⟨e0 :: rest, 0⟩ ts u hs hne (Or.inl rfl)]
    unfold rescanStrict
    simp only [List.head?_cons]
    have hev : (lastStartingBefore (e0 :: rest) ts).getD e0 = evAtScan (e0 :: rest) ts hne := by
      by_cases hk : cntBefore ts (e0 :: rest) = 0
      · rw [lastStartingBefore_eq_none ts hs hk]
        unfold evAtScan scanIdx
        simp [hk]
      · rw [lastStartingBefore_eq_some ts hs (by omega)]
        rfl
    rw [hev]

/-- Sequential stateful lookups: thread the cursor through a list of
query timestamps, collecting the results. -/
def lookupAll (b : BucketData) (u : Bool) : List Int → List (Option Event) × BucketData
  | [] => ([], b)
  | ts :: rest =>
    let r := getByTimestamp b ts u
    let rs := lookupAll r.2 u rest
    (r.1 :: rs.1, rs.2)

theorem validFor_zero (l : List Event) (ts : Int) : ValidFor ⟨l, 0⟩ ts :=
  Or.inl rfl

theorem validFor_after (l : List Event) (ts ts' : Int) (hts : ts ≤ ts')
    (hne : l ≠ []) : ValidFor ⟨l, scanIdx l ts⟩ ts' := by
  by_cases hk : cntBefore ts l = 0
  · exact Or.inl (by simp [scanIdx, hk])
  · have hidx : cntBefore ts l - 1 < l.length := by
      have := cntBefore_le ts l; have := List.length_pos.mpr hne; omega
    have hlt : (l.get ⟨cntBefore ts l - 1, hidx⟩).timestamp < ts :=
      cntBefore_lt_ts ts l (cntBefore ts l - 1) hidx (by omega)
    refine Or.inr (Or.inr ⟨scanIdx_lt hne ts, ?_⟩)
    show (l.get ⟨cntBefore ts l - 1, hidx⟩).timestamp ≠ ts'
    omega

theorem lookupAll_empty (u : Bool) :
    ∀ (qs : List Int) (b : BucketData), b.events = [] →
      (lookupAll b u qs).1 = qs.map (fun _ => none) := by
  intro qs
  induction qs with
  | nil => intro b _; rfl
  | cons ts rest ih =>
    intro b hb
    have h1 : getByTimestamp b ts u = (none, b) := by
      unfold getByTimestamp
      rw [hb]
    simp only [lookupAll, h1, List.map_cons]
    rw [ih b hb]

theorem lookupAll_eq (u : Bool) :
    ∀ (qs : List Int) (b : BucketData), isSortedTs b.events = true →
      qs.Chain' (fun a b => a ≤ b) →
      (∀ ts0, qs.head? = some ts0 → ValidFor b ts0) →
      (lookupAll b u qs).1 = qs.map (fun ts => rescan b.events ts u) := by
  intro qs
  induction qs with
  | nil => intro b _ _ _; rfl
  | cons ts rest ih =>
    intro b hs hchain hvalid
    by_cases hevents : b.events = []
    · rw [lookupAll_empty u (ts :: rest) b hevents]
      have hr : (fun t : Int => rescan b.events t u) = fun _ => none := by
        funext t; rw [hevents]; rfl
      rw [hr]
    · have hne : b.events ≠ [] := hevents
      have hv : ValidFor b ts := hvalid ts rfl
      have heq := getByTimestamp_eq b ts u hs hne hv
      have hfresh := getByTimestamp_eq ⟨b.events, 0⟩ ts u hs hne (validFor_zero b.events ts)
      have hres : (getByTimestamp b ts u).1 = rescan b.events ts u := by
        rw [heq]; unfold rescan; rw [hfresh]
      have hchain' := List.chain'_cons'.mp hchain
      have hvafter : ∀ ts1, rest.head? = some ts1 →
          ValidFor ⟨b.events, scanIdx b.events ts⟩ ts1 := by
        intro ts1 hts1
        exact validFor_after b.events ts ts1 (hchain'.1 ts1 hts1) hne
      have hrec : (lookupAll ⟨b.events, scanIdx b.events ts⟩ u rest).1 =
          rest.map (fun t => rescan b.events t u) :=
        ih ⟨b.events, scanIdx b.events ts⟩ hs hchain'.2 hvafter
      have hstep : (getByTimestamp b ts u).2 = ⟨b.events, scanIdx b.events ts⟩ := by
        rw [heq]
      simp only [lookupAll, List.map_cons]
      rw [hres, hstep, hrec]

/-- Concrete events for small counterexamples and witnesses. -/
def evA : Event := ⟨0, 0, {}⟩

def evB : Event := ⟨5, 5, {}⟩

def evC : Event := ⟨0, 2, {}⟩

def evD : Event := ⟨10, 1, {}⟩

/-- C1 counterexample: on the sorted series [evA@0, evB@5] the single
(non-decreasing) query at ts = 5 returns `none` from `get_by_timestamp`,
while the claim's from-scratch scan — greatest event with timestamp ≤ ts,
then the expiry check — returns evB, the event starting exactly at ts.
The advance loop stops at `next_ev.timestamp >= timestamp`, i.e. it only
advances over events starting strictly before ts. -/
theorem c1_counterexample :
    isSortedTs [evA, evB] = true ∧
    List.Chain' (fun a b => a ≤ b) [(5 : Int)] ∧
    (lookupAll ⟨[evA, evB], 0⟩ true [(5 : Int)]).1 = [none] ∧
    [(5 : Int)].map (fun ts => rescanLe [evA, evB] ts true) = [some evB] := by
  refine ⟨by decide, ?_, by decide, by decide⟩
  simp

/-- C1 (amended): cursor-accelerated lookup equals a from-scratch scan —
for every series sorted ascending by timestamp and every non-decreasing
sequence of query timestamps, `lookup(ts, useDuration)` returns the same
event as re-scanning the whole series from the start at each query for
the last event whose timestamp is strictly less than ts (the first event
when none starts before ts), then applying the duration/expiry check.
The cursor advances only while the next event's timestamp is < ts, so an
event starting exactly at ts is not selected (unless it is the first). -/
theorem c1_cursor_lookup_eq_rescan (events : List Event) (u : Bool) (qs : List Int)
    (hs : isSortedTs events = true) (hmono : qs.Chain' (fun a b => a ≤ b)) :
    (lookupAll ⟨events, 0⟩ u qs).1 = qs.map (fun ts => rescanStrict events ts u) := by
  rw [lookupAll_eq u qs ⟨events, 0⟩ hs hmono (fun ts0 _ => validFor_zero events ts0)]
  exact List.map_congr_left (fun ts _ => rescan_eq_rescanStrict events ts u hs)

theorem c1_cursor_lookup_eq_rescan_witness :
    (lookupAll ⟨[evA, evB], 0⟩ true [0, 3, 5, 6, 9, 11]).1 =
      List.map (fun ts => rescanStrict [evA, evB] ts true) [0, 3, 5, 6, 9, 11] :=
  c1_cursor_lookup_eq_rescan [evA, evB] true [0, 3, 5, 6, 9, 11] (by decide)
    (by simp [List.chain'_cons])

/-- C7: gap semantics — for a non-empty sorted series queried with
`useDuration = true`, when ts falls strictly after the located event's
`timestamp + duration` and strictly before the following event's
timestamp, the lookup returns absent. -/
theorem c7_gap_returns_none (events : List Event) (ts : Int)
    (hs : isSortedTs events = true) (hne : events ≠ [])
    (hgap : (evAtScan events ts hne).timestamp + (evAtScan events ts hne).duration < ts)
    (hnext : ∀ h : cntBefore ts events < events.length,
      ts < (events.get ⟨cntBefore ts events, h⟩).timestamp) :
    (getByTimestamp ⟨events, 0⟩ ts true).1 = none := by
  rw [getByTimestamp_eq ⟨events, 0⟩ ts true hs hne (validFor_zero events ts)]
  have hcond : (true && decide (ts > (evAtScan events ts hne).timestamp +
      (evAtScan events ts hne).duration)) = true := by
    simp only [Bool.true_and, decide_eq_true_eq]
    omega
  simp [hcond]

theorem c7_gap_returns_none_witness :
    (getByTimestamp ⟨[evC, evD], 0⟩ 5 true).1 = none :=
  c7_gap_returns_none [evC, evD] 5 (by decide) (by decide) (by decide) (by decide)

/-- C10: a query strictly before the first event of a non-empty series
with non-negative durations returns the first event — whose timestamp is
strictly greater than ts — rather than absent, whatever `useDuration` is
and whatever cursor position the series is in. -/
theorem c10_before_first_returns_first (b : BucketData) (ts : Int) (u : Bool) (e0 : Event)
    (hs : isSortedTs b.events = true)
    (hhead : b.events.head? = some e0)
    (hts : ts < e0.timestamp)
    (hdur : ∀ e ∈ b.events, 0 ≤ e.duration) :
    (getByTimestamp b ts u).1 = some e0 ∧ ts < e0.timestamp := by
  obtain ⟨events, pos⟩ := b
  match events, hhead with
  | a :: rest, hhead =>
  have he0 : a = e0 := by simpa using hhead
  subst he0
  have hne : (a :: rest) ≠ [] := by simp
  have hs' : isSortedTs (a :: rest) = true := hs
  have h0len : (0 : Nat) < (a :: rest).length := by simp
  have hvalid : ValidFor ⟨a :: rest, pos⟩ ts := by
    by_cases hp : pos < (a :: rest).length
    · refine Or.inr (Or.inr ⟨hp, ?_⟩)
      have hle := isSortedTs_le hs' 0 pos h0len hp (Nat.zero_le pos)
      have hget0 : ((a :: rest).get ⟨0, h0len⟩) = a := rfl
      rw [hget0] at hle
      show ((a :: rest).get ⟨pos, hp⟩).timestamp ≠ ts
      omega
    · refine Or.inr (Or.inl ?_)
      show (a :: rest).length ≤ pos
      omega
  have hk : cntBefore ts (a :: rest) = 0 := by
    have : ¬ a.timestamp < ts := by omega
    simp [cntBefore, this]
  have hidx : scanIdx (a :: rest) ts = 0 := by
    unfold scanIdx; omega
  have hfin : (⟨scanIdx (a :: rest) ts, scanIdx_lt hne ts⟩ : Fin (a :: rest).length) =
      ⟨0, h0len⟩ := by
    apply Fin.ext; simpa using hidx
  have hev : evAtScan (a :: rest) ts hne = a := by
    unfold evAtScan
    rw [hfin]
    rfl
  have hd0 : 0 ≤ a.duration := hdur a (by simp)
  rw [getByTimestamp_eq ⟨a :: rest, pos⟩ ts u hs' hne hvalid, hev]
  have hcond : (u && decide (ts > a.timestamp + a.duration)) = false := by
    have hnot : ¬ (ts > a.timestamp + a.duration) := by omega
    simp [hnot]
  refine ⟨?_, hts⟩
  simp [hcond]

theorem c10_before_first_returns_first_witness :
    (getByTimestamp ⟨[evD], 3⟩ 2 true).1 = some evD ∧ (2 : Int) < evD.timestamp :=
  c10_before_first_returns_first ⟨[evD], 3⟩ 2 true evD (by decide) (by decide)
    (by decide) (by decide)

/-! ## The sweep: `AllData` -/

/-- Runtime failures of the script, as explicit values.  In Python these
are a ValueError (bad bucket id), AssertionError (missing role),
TypeError (comparing None in `min`, `re.sub` on a None title,
`re.search` on a None url) or ValueError (`max` of an empty sequence). -/
inductive Err where
  | badBucketId (id : String)
  | missingRole
  | noFirstTs
  | noTotal
  | noTitle
  | noUrl
  deriving Repr, DecidableEq

/-- Side effects issued against the destination store, in order. -/
inductive Action where
  | deleteBucket (id : String)
  | createBucket (id : String) (ty : String)
  | insertEvent (bucket : String) (ev : Event)
  deriving Repr, DecidableEq

def listStartsWith : List Char → List Char → Bool
  | _, [] => true
  | [], _ :: _ => false
  | c :: cs, p :: ps => c == p && listStartsWith cs ps

def strStartsWith (s pat : String) : Bool := listStartsWith s.data pat.data

def splitUnderscoreChars : List Char → List (List Char)
  | [] => [[]]
  | c :: cs =>
    let r := splitUnderscoreChars cs
    if c == '_' then [] :: r
    else
      match r with
      | [] => [[c]]
      | g :: gs => (c :: g) :: gs

/-- Model of `bucket_id.split("_")`. -/
def splitUnderscore (s : String) : List String :=
  (splitUnderscoreChars s.data).map (fun l => ⟨l⟩)

/-- Remove every (non-overlapping, left-to-right) occurrence of the
non-empty pattern; fuel is the string length, enough since every step
consumes at least one character. -/
def removeAllChars (pat : List Char) : Nat → List Char → List Char
  | 0, l => l
  | _ + 1, [] => []
  | fuel + 1, c :: cs =>
    if listStartsWith (c :: cs) pat && !pat.isEmpty then
      removeAllChars pat fuel ((c :: cs).drop pat.length)
    else c :: removeAllChars pat fuel cs

/-- Model of `s.replace(pat, "")` — also `re.sub` with a literal pattern. -/
def strRemoveAll (s pat : String) : String :=
  ⟨removeAllChars pat.data s.data.length s.data⟩

/-- The loaded `self.data` dict: role name to series, in insertion order. -/
abbrev RoleData := List (String × BucketData)

/-- Python dict assignment: overwrite in place, else append. -/
def upsert (m : RoleData) (k : String) (v : BucketData) : RoleData :=
  if m.any (fun p => p.1 == k) then
    m.map (fun p => if p.1 == k then (k, v) else p)
  else m ++ [(k, v)]

/-- One iteration of the bucket loop in `AllData.load`: skip ids without
the `aw-watcher-` tag or with a foreign hostname, split on `_` (exactly
two parts, else ValueError), map role alias `web-chrome` to `web`, store
the sorted events. -/
def loadStep (srcHostname : String) (acc : RoleData) (bucket : String × List Event) :
    Except Err RoleData :=
  if !strStartsWith bucket.1 "aw-watcher-" then .ok acc
  else
    match splitUnderscore bucket.1 with
    | [bname, host] =>
      if host == srcHostname then
        let r0 := strRemoveAll bname "aw-watcher-"
        let role := if r0 == "web-chrome" then "web" else r0
        .ok (upsert acc role ⟨sortByTs bucket.2, 0⟩)
      else .ok acc
    | _ => .error (.badBucketId bucket.1)

/-- The filtering/mapping loop of `AllData.load` (before its assert). -/
def loadRaw (srcHostname : String) : List (String × List Event) → RoleData → Except Err RoleData
  | [], acc => .ok acc
  | bkt :: rest, acc =>
    match loadStep srcHostname acc bkt with
    | .error e => .error e
    | .ok acc2 => loadRaw srcHostname rest acc2

def hasRole (data : RoleData) (r : String) : Bool := data.any (fun p => p.1 == r)

/-- Model of `AllData.load`: the loop, then
`assert all(bname in self.data for bname in ('window','afk','web'))`. -/
def loadAll (srcHostname : String) (srcBuckets : List (String × List Event)) :
    Except Err RoleData :=
  match loadRaw srcHostname srcBuckets [] with
  | .error e => .error e
  | .ok data =>
    if hasRole data "window" && hasRole data "afk" && hasRole data "web" then .ok data
    else .error .missingRole

/-- Model of `AllData.prepare_target`: delete then recreate every destination
bucket with its original type. -/
def prepareActions : List (String × String) → List Action
  | [] => []
  | (id, ty) :: rest => Action.deleteBucket id :: Action.createBucket id ty :: prepareActions rest

def firstTsList : RoleData → Option (List Int)
  | [] => some []
  | p :: rest =>
    match getFirstTs p.2, firstTsList rest with
    | some t, some ts => some (t :: ts)
    | _, _ => none

/-- Model of `min(bucket.get_first_ts() for bucket in self.data.values())`:
`none` models the Python TypeError when any series is empty (its first
timestamp is `None`) and the ValueError on an empty dict. -/
def minFirstTs (data : RoleData) : Option Int :=
  match firstTsList data with
  | none => none
  | some [] => none
  | some (t :: ts) => some (ts.foldl min t)

/-- Model of `max(bucket.get_total_duration() for ...)` (the `is not None` filter
in the source never fires: `get_total_duration` always returns a value). -/
def maxTotalDuration (data : RoleData) : Option Int :=
  match data.map (fun p => getTotalDuration p.2) with
  | [] => none
  | t :: ts => some (ts.foldl max t)

/-- Model of `re.search` with pattern `^https?://([^/]+)` on the url: the captured group — the
maximal non-empty run of non-`/` characters after the scheme. -/
def chromeHost (url : String) : Option String :=
  let cs := url.data
  if listStartsWith cs "https://".data then
    let host := (cs.drop 8).takeWhile (fun c => c != '/')
    if host.isEmpty then none else some ⟨host⟩
  else if listStartsWith cs "http://".data then
    let host := (cs.drop 7).takeWhile (fun c => c != '/')
    if host.isEmpty then none else some ⟨host⟩
  else none

/-- Model of `re.sub` with pattern `^\d+:\d+\s+` — strip a leading clock-like tag. -/
def stripClockTag (title : String) : String :=
  match title.data.span Char.isDigit with
  | (d1, rest1) =>
    if d1.isEmpty then title
    else
      match rest1 with
      | ':' :: rest2 =>
        match rest2.span Char.isDigit with
        | (d2, rest3) =>
          if d2.isEmpty then title
          else
            match rest3.span Char.isWhitespace with
            | (ws, rest4) => if ws.isEmpty then title else ⟨rest4⟩
      | _ => title

/-- Non-overlapping left-to-right substitution scan with length fuel. -/
def subScan (m : List Char → Option (List Char)) : Nat → List Char → List Char
  | 0, l => l
  | _ + 1, [] => []
  | fuel + 1, c :: cs =>
    match m (c :: cs) with
    | some rest => subScan m fuel rest
    | none => c :: subScan m fuel cs

/-- One match of `\(\d+\)\s+`, returning the remainder. -/
def matchUnreadTag : List Char → Option (List Char)
  | '(' :: rest =>
    match rest.span Char.isDigit with
    | (ds, rest2) =>
      if ds.isEmpty then none
      else
        match rest2 with
        | ')' :: rest3 =>
          match rest3.span Char.isWhitespace with
          | (ws, rest4) => if ws.isEmpty then none else some rest4
        | _ => none
  | _ => none

/-- One match of `\*\s+`, returning the remainder. -/
def matchStarTag : List Char → Option (List Char)
  | '*' :: rest =>
    match rest.span Char.isWhitespace with
    | (ws, rest2) => if ws.isEmpty then none else some rest2
  | _ => none

/-- Model of `re.sub` with pattern `\(\d+\)\s+`. -/
def stripUnreadTags (title : String) : String :=
  ⟨subScan matchUnreadTag title.data.length title.data⟩

/-- Model of `re.sub` with pattern `\*\s+`. -/
def stripStarTags (title : String) : String :=
  ⟨subScan matchStarTag title.data.length title.data⟩

/-- Model of `re.sub` on the Code bullet — the literal mojibake glyph sequence
U+201A U+00F3 U+00E8 followed by a space, removed everywhere. -/
def stripBulletGlyph (title : String) : String :=
  strRemoveAll title "‚óè "

/-- The browser-normalization block (`if app == "Google-chrome" and ev_web`):
take the web title; incognito forces title PRIVATE keeping the app;
otherwise the URL host (when the pattern matches) replaces the app.
A missing url raises in the non-incognito branch. -/
def chromeNormalize (app title : Option String) (evWeb : Option Event) :
    Except Err (Option String × Option String) :=
  match evWeb with
  | some w =>
    if app == some "Google-chrome" then
      let title1 := w.data.title
      if w.data.incognito then .ok (app, some "PRIVATE")
      else
        match w.data.url with
        | none => .error .noUrl
        | some url =>
          match chromeHost url with
          | some host => .ok (some host, title1)
          | none => .ok (app, title1)
    else .ok (app, title)
  | none => .ok (app, title)

/-- Model of a guarded `title = re.sub(..., title)` under an app guard: a None title makes
`re.sub` raise when the guard holds. -/
def applySub (cond : Bool) (f : String → String) (title : Option String) :
    Except Err (Option String) :=
  if cond then
    match title with
    | none => .error .noTitle
    | some t => .ok (some (f t))
  else .ok title

/-- Candidate derivation for one sweep second once a window event is
present and the second is active (source lines 208-235), in source
order: chrome normalization, kanbanflow, Code, localhost aliasing,
messenger/facebook, slack. -/
def deriveNormalize (evW : Event) (evWeb : Option Event) :
    Except Err (Option String × Option String) := do
  let app0 := evW.data.app
  let title0 := evW.data.title
  let r1 ← chromeNormalize app0 title0 evWeb
  let app1 := r1.1
  let title2 ← applySub (app1 == some "kanbanflow.com") stripClockTag r1.2
  let title3 ← applySub (app1 == some "Code") stripBulletGlyph title2
  let app2 := if app1 == some "localhost:5600" || app1 == some "localhost:5666" then
      some "ActivityWatch" else app1
  let title4 ← applySub
    (app2 == some "www.messenger.com" || app2 == some "www.facebook.com")
    stripUnreadTags title3
  let title5 ← applySub (app2 == some "app.slack.com") stripStarTags title4
  return (app2, title5)

/-- Model of `update_event(app, title, ts)`: extend a matching current interval,
else close it (emitting the pair of inserts when its duration is
positive) and start a new one when the candidate app is non-null. -/
def updateEvent (dstW dstA : String) (cur : Option Event) (app title : Option String)
    (ts : Int) : Option Event × List Action :=
  let fresh : Option Event :=
    if app.isSome then some ⟨ts, 0, { app := app, title := title }⟩ else none
  match cur with
  | some c =>
    if app.isSome && (c.data.app == app) && (c.data.title == title) then
      (some { c with duration := ts - c.timestamp }, [])
    else
      let ems :=
        if c.duration > 0 then
          [Action.insertEvent dstW c,
           Action.insertEvent dstA { c with data := { c.data with status := some "not-afk" } }]
        else []
      (fresh, ems)
  | none => (fresh, [])

/-- Model of `is_afk`: an afk event with status "afk", overridden to false by an
audible web event. -/
def computeIsAfk (evAfk evWeb : Option Event) : Bool :=
  let base :=
    match evAfk with
    | some a => a.data.status == some "afk"
    | none => false
  match evWeb with
  | some w => if w.data.audible then false else base
  | none => base

/-- One sweep second after the three lookups: idle path (`is_afk or no
window event`) or candidate derivation + `update_event`. -/
def stepCore (dstW dstA : String) (ts : Int) (evWindow evWeb evAfk cur : Option Event) :
    Option Event × List Action × Option Err :=
  if computeIsAfk evAfk evWeb || evWindow.isNone then
    let r := updateEvent dstW dstA cur none none ts
    (r.1, r.2, none)
  else
    match evWindow with
    | none => (cur, [], none)
    | some evW =>
      match deriveNormalize evW evWeb with
      | .error e => (cur, [], some e)
      | .ok (app, title) =>
        let r := updateEvent dstW dstA cur app title ts
        (r.1, r.2, none)

/-- Sweep state: the three series (with cursors), the current interval,
the actions issued so far, and a pending error. -/
structure SweepSt where
  window : BucketData
  afk : BucketData
  web : BucketData
  cur : Option Event
  out : List Action
  err : Option Err
  deriving Repr, DecidableEq

/-- One iteration of the sweep loop: the three lookups (window and afk
with durations, web without) and the per-second step. -/
def sweepStep (dstW dstA : String) (ts : Int) (s : SweepSt) : SweepSt :=
  let rWin := getByTimestamp s.window ts true
  let rWeb := getByTimestamp s.web ts false
  let rAfk := getByTimestamp s.afk ts true
  let r := stepCore dstW dstA ts rWin.1 rWeb.1 rAfk.1 s.cur
  { window := rWin.2, afk := rAfk.2, web := rWeb.2,
    cur := r.1, out := s.out ++ r.2.1, err := r.2.2 }

/-- The sweep over second offsets; an error aborts the loop (the Python
exception propagates), keeping the actions issued so far. -/
def sweepLoop (dstW dstA : String) (firstTs : Int) : List Nat → SweepSt → SweepSt
  | [], s => s
  | off :: rest, s =>
    if s.err.isSome then s
    else sweepLoop dstW dstA firstTs rest (sweepStep dstW dstA (firstTs + (off : Int)) s)

/-- A whole run's input: source hostname and buckets, destination
hostname and existing destination buckets (id, type). -/
structure Input where
  srcHostname : String
  dstHostname : String
  srcBuckets : List (String × List Event)
  dstBuckets : List (String × String)
  deriving Repr, DecidableEq

def dstWindowBucket (i : Input) : String := "aw-watcher-window_" ++ i.dstHostname

def dstAfkBucket (i : Input) : String := "aw-watcher-afk_" ++ i.dstHostname

def findBucket (data : RoleData) (k : String) : BucketData :=
  match data.find? (fun p => p.1 == k) with
  | some p => p.2
  | none => ⟨[], 0⟩

/-- Model of `AllData.process`: load, wipe/recreate the destination, compute the
sweep bounds (start = min of first timestamps, which raises when a
loaded series is empty; length = max of total durations, truncated to
whole seconds), then sweep.  Returns the destination actions in order
plus the error that aborted the run, if any. -/
def processModel (i : Input) : List Action × Option Err :=
  match loadAll i.srcHostname i.srcBuckets with
  | .error e => ([], some e)
  | .ok data =>
    let prep := prepareActions i.dstBuckets
    match minFirstTs data with
    | none => (prep, some .noFirstTs)
    | some firstTs =>
      match maxTotalDuration data with
      | none => (prep, some .noTotal)
      | some total =>
        let st0 : SweepSt := { window := findBucket data "window",
                               afk := findBucket data "afk",
                               web := findBucket data "web",
                               cur := none, out := [], err := none }
        let stF := sweepLoop (dstWindowBucket i) (dstAfkBucket i) firstTs
          (List.range total.toNat) st0
        (prep ++ stF.out, stF.err)

/-! ## Claims on the per-second step -/

/-- C6: Chrome normalization — with a window app of "Google-chrome" and a
web event present, the derived title becomes the web event's title; an
incognito web event forces title "PRIVATE" with the app unchanged; a
non-incognito URL matching the host pattern replaces the app by the
captured host, and url "https://mail.example.com/x" captures host
"mail.example.com". -/
theorem c6_chrome_normalization (w : Event) (title0 : Option String) :
    (w.data.incognito = true →
      chromeNormalize (some "Google-chrome") title0 (some w) =
        .ok (some "Google-chrome", some "PRIVATE")) ∧
    (w.data.incognito = false → ∀ u h, w.data.url = some u → chromeHost u = some h →
      chromeNormalize (some "Google-chrome") title0 (some w) = .ok (some h, w.data.title)) ∧
    (w.data.incognito = false → ∀ u, w.data.url = some u → chromeHost u = none →
      chromeNormalize (some "Google-chrome") title0 (some w) =
        .ok (some "Google-chrome", w.data.title)) ∧
    chromeHost "https://mail.example.com/x" = some "mail.example.com" := by
  refine ⟨?_, ?_, ?_, by decide⟩
  · intro hinc
    simp [chromeNormalize, hinc]
  · intro hinc u h hu hh
    simp [chromeNormalize, hinc, hu, hh]
  · intro hinc u hu hh
    simp [chromeNormalize, hinc, hu, hh]

theorem c6_chrome_normalization_witness :
    chromeNormalize (some "Google-chrome") (some "t0")
        (some ⟨0, 10, { url := some "https://mail.example.com/x", title := some "wt" }⟩) =
      .ok (some "mail.example.com", some "wt") :=
  ((c6_chrome_normalization
      ⟨0, 10, { url := some "https://mail.example.com/x", title := some "wt" }⟩
      (some "t0")).2.1 rfl "https://mail.example.com/x" "mail.example.com" rfl (by decide))

/-- C5: audible override — at a sweep second where the afk lookup yields
status "afk" but the web lookup yields an audible event, `is_afk` is
forced false; with a window event present the step takes the active path
with the window-derived candidate, starting a new interval from it when
none is current and extending a matching current interval. -/
theorem c5_audible_override (dstW dstA : String) (ts : Int) (a w winEv : Event)
    (cur : Option Event) (app : String) (title : Option String)
    (hafk : a.data.status = some "afk")
    (haud : w.data.audible = true)
    (hnorm : deriveNormalize winEv (some w) = .ok (some app, title)) :
    computeIsAfk (some a) (some w) = false ∧
    stepCore dstW dstA ts (some winEv) (some w) (some a) cur =
      ((updateEvent dstW dstA cur (some app) title ts).1,
       (updateEvent dstW dstA cur (some app) title ts).2, none) ∧
    (updateEvent dstW dstA none (some app) title ts).1 =
      some ⟨ts, 0, { app := some app, title := title }⟩ ∧
    (∀ c : Event, c.data.app = some app → c.data.title = title →
      (updateEvent dstW dstA (some c) (some app) title ts).1 =
        some { c with duration := ts - c.timestamp }) := by
  have hisafk : computeIsAfk (some a) (some w) = false := by
    simp [computeIsAfk, haud]
  refine ⟨hisafk, ?_, ?_, ?_⟩
  · simp [stepCore, hisafk, hnorm]
  · simp [updateEvent]
  · intro c hc1 hc2
    simp [updateEvent, hc1, hc2]

theorem c5_audible_override_witness :
    computeIsAfk (some ⟨0, 5, { status := some "afk" }⟩)
        (some ⟨0, 5, { audible := true }⟩) = false ∧
    stepCore "W" "A" 7 (some ⟨0, 9, { app := some "X", title := some "t" }⟩)
        (some ⟨0, 5, { audible := true }⟩) (some ⟨0, 5, { status := some "afk" }⟩) none =
      ((updateEvent "W" "A" none (some "X") (some "t") 7).1,
       (updateEvent "W" "A" none (some "X") (some "t") 7).2, none) ∧
    (updateEvent "W" "A" none (some "X") (some "t") 7).1 =
      some ⟨7, 0, { app := some "X", title := some "t" }⟩ ∧
    (∀ c : Event, c.data.app = some "X" → c.data.title = some "t" →
      (updateEvent "W" "A" (some c) (some "X") (some "t") 7).1 =
        some { c with duration := 7 - c.timestamp }) :=
  c5_audible_override "W" "A" 7 ⟨0, 5, { status := some "afk" }⟩
    ⟨0, 5, { audible := true }⟩ ⟨0, 9, { app := some "X", title := some "t" }⟩
    none "X" (some "t") rfl rfl rfl

/-! ## Claim C3: coalescing at the `update_event` level -/

/-- Fold `update_event` over a list of per-second (app, title, ts)
candidates, collecting the emitted actions in order. -/
def runUpdates (dstW dstA : String) (cur : Option Event) :
    List (Option String × Option String × Int) → Option Event × List Action
  | [] => (cur, [])
  | (a, t, ts) :: rest =>
    let r := updateEvent dstW dstA cur a t ts
    let rr := runUpdates dstW dstA r.1 rest
    (rr.1, r.2 ++ rr.2)

/-- N consecutive seconds with the identical non-null candidate
`(some a, t)` starting at ts0, followed by one second with a different
candidate `(b, t2)`. -/
def mkSteps (a : String) (t : Option String) (ts0 : Int) (N : Nat)
    (b : Option String) (t2 : Option String) : List (Option String × Option String × Int) :=
  ((List.range N).map (fun k : Nat => (some a, t, ts0 + (k : Int)))) ++
    [(b, t2, ts0 + (N : Int))]

theorem runUpdates_append (dstW dstA : String) :
    ∀ (l1 l2 : List (Option String × Option String × Int)) (cur : Option Event),
      runUpdates dstW dstA cur (l1 ++ l2) =
        ((runUpdates dstW dstA (runUpdates dstW dstA cur l1).1 l2).1,
         (runUpdates dstW dstA cur l1).2 ++
           (runUpdates dstW dstA (runUpdates dstW dstA cur l1).1 l2).2) := by
  intro l1
  induction l1 with
  | nil => intro l2 cur; simp [runUpdates]
  | cons s rest ih =>
    intro l2 cur
    obtain ⟨a, t, ts⟩ := s
    simp only [List.cons_append, runUpdates]
    rw [List.append_eq, ih]
    simp [List.append_assoc]

/-- Extension phase: while the candidate keeps matching, the current
interval is extended in place (duration := ts - start) and nothing is
emitted.  Starting duration `(s:Int) - 1` matches the invariant after
the samples at offsets `< s`. -/
theorem c3_extend (dstW dstA : String) (a : String) (t : Option String) (ts0 : Int) :
    ∀ (k s : Nat),
      runUpdates dstW dstA (some ⟨ts0, (s : Int) - 1, { app := some a, title := t }⟩)
        ((List.range' s k).map (fun j : Nat => (some a, t, ts0 + (j : Int)))) =
      (some ⟨ts0, (s : Int) + (k : Int) - 1, { app := some a, title := t }⟩, []) := by
  intro k
  induction k with
  | zero =>
    intro s
    simp [runUpdates]
  | succ n ih =>
    intro s
    have hr : List.range' s (n + 1) = s :: List.range' (s + 1) n := rfl
    rw [hr]
    simp only [List.map_cons, runUpdates]
    have hupd : updateEvent dstW dstA
        (some ⟨ts0, (s : Int) - 1, { app := some a, title := t }⟩) (some a) t
        (ts0 + (s : Int)) =
        (some ⟨ts0, (s : Int), { app := some a, title := t }⟩, []) := by
      simp [updateEvent]
    rw [hupd]
    have hcast : (some (⟨ts0, (s : Int), { app := some a, title := t }⟩ : Event)) =
        some ⟨ts0, ((s + 1 : Nat) : Int) - 1, { app := some a, title := t }⟩ := by
      push_cast; ring_nf
    rw [hcast, ih (s + 1)]
    have hsum : ((s + 1 : Nat) : Int) + (n : Int) - 1 = (s : Int) + ((n + 1 : Nat) : Int) - 1 := by
      push_cast; ring
    rw [hsum]
    rfl

/-- Start-plus-extension: the first sample opens the interval at ts0 with
duration 0, the remaining m matching samples extend it to duration m. -/
theorem c3_phase1 (dstW dstA : String) (a : String) (t : Option String) (ts0 : Int) (m : Nat) :
    runUpdates dstW dstA none
      ((List.range' 0 (m + 1)).map (fun k : Nat => (some a, t, ts0 + (k : Int)))) =
    (some ⟨ts0, (m : Int), { app := some a, title := t }⟩, []) := by
  have hsplit : List.range' 0 (m + 1) = 0 :: List.range' 1 m := rfl
  rw [hsplit, List.map_cons]
  simp only [runUpdates]
  have h1 : updateEvent dstW dstA none (some a) t (ts0 + ((0 : Nat) : Int)) =
      (some ⟨ts0, 0, { app := some a, title := t }⟩, []) := by
    simp [updateEvent]
  rw [h1]
  have hc : (some (⟨ts0, (0 : Int), { app := some a, title := t }⟩ : Event)) =
      some ⟨ts0, ((1 : Nat) : Int) - 1, { app := some a, title := t }⟩ := by
    norm_num
  rw [hc, c3_extend dstW dstA a t ts0 m 1]
  have : ((1 : Nat) : Int) + (m : Int) - 1 = (m : Int) := by push_cast; ring
  rw [this]
  rfl

/-- C3 counterexample: a single second (N = 1) with a non-null candidate
followed by a differing second emits nothing at all — the interval
closes with duration 0 and is dropped, not emitted as one interval of
duration 1. -/
theorem c3_counterexample :
    (runUpdates "aw-watcher-window_h" "aw-watcher-afk_h" none
      (mkSteps "A" (some "T") 0 1 none none)).2 = [] := by
  decide

/-- C3 (amended): N consecutive seconds with the identical non-null
candidate followed by a differing second emit exactly one window
interval (plus its not-afk twin) of duration N - 1 seconds when N ≥ 2 —
the N samples span N - 1 elapsed seconds — and nothing when N = 1 (the
zero-duration interval is dropped). -/
theorem c3_coalescing (dstW dstA : String) (a : String) (t t2 : Option String)
    (b : Option String) (ts0 : Int) (N : Nat) (hN : 1 ≤ N)
    (hdiff : ¬(b = some a ∧ t2 = t)) :
    (runUpdates dstW dstA none (mkSteps a t ts0 N b t2)).2 =
      if N = 1 then []
      else [Action.insertEvent dstW ⟨ts0, (N : Int) - 1, { app := some a, title := t }⟩,
            Action.insertEvent dstA ⟨ts0, (N : Int) - 1,
              { app := some a, title := t, status := some "not-afk" }⟩] := by
  obtain ⟨m, rfl⟩ : ∃ m, N = m + 1 := ⟨N - 1, by omega⟩
  unfold mkSteps
  rw [List.range_eq_range']
  rw [runUpdates_append, c3_phase1]
  simp only [runUpdates, List.nil_append, List.append_nil]
  have hcond : ((b).isSome &&
      ((({ app := some a, title := t } : EventData).app == b) &&
        (({ app := some a, title := t } : EventData).title == t2))) = false := by
    by_cases hb : b = some a
    · have ht2 : t2 ≠ t := fun h => hdiff ⟨hb, h⟩
      have : (t == t2) = false := beq_eq_false_iff_ne.mpr (Ne.symm ht2)
      simp [hb, this]
    · have : (some a == b) = false := beq_eq_false_iff_ne.mpr (fun h => hb h.symm)
      simp [this]
  simp only [updateEvent, Bool.and_assoc] at hcond ⊢
  rw [hcond]
  simp only [Bool.false_eq_true, if_false]
  by_cases hm : m = 0
  · subst hm
    norm_num
  · have hpos : ((m : Int)) > 0 := by
      have : 1 ≤ m := by omega
      exact_mod_cast this
    rw [if_pos hpos, if_neg (by omega : ¬ m + 1 = 1)]
    have hcast : ((m + 1 : Nat) : Int) - 1 = (m : Int) := by push_cast; ring
    rw [hcast]

theorem c3_coalescing_witness :
    (runUpdates "aw-watcher-window_h" "aw-watcher-afk_h" none
      (mkSteps "A" (some "T") 0 3 none none)).2 =
      [Action.insertEvent "aw-watcher-window_h"
        ⟨0, (3 : Int) - 1, { app := some "A", title := some "T" }⟩,
       Action.insertEvent "aw-watcher-afk_h"
        ⟨0, (3 : Int) - 1, { app := some "A", title := some "T", status := some "not-afk" }⟩] := by
  have h := c3_coalescing "aw-watcher-window_h" "aw-watcher-afk_h" "A" (some "T") none
    none 0 3 (by omega) (by simp)
  simpa using h

/-! ## Claims on the whole run -/

/-- The end-to-end scenario of the spec: one window event (Code, "a",
10 s) at t0, one not-afk event (10 s) at t0, and an empty web series. -/
def c2WindowEvent (t0 : Int) : Event := ⟨t0, 10, { app := some "Code", title := some "a" }⟩

def c2AfkEvent (t0 : Int) : Event := ⟨t0, 10, { status := some "not-afk" }⟩

def c2Input (t0 : Int) : Input :=
  ⟨"h", "h",
   [("aw-watcher-window_h", [c2WindowEvent t0]),
    ("aw-watcher-afk_h", [c2AfkEvent t0]),
    ("aw-watcher-web-chrome_h", [])],
   []⟩

/-- C2 counterexample: on the end-to-end scenario input the run emits no
events at all — the destination trace is empty and the run aborts — so
it does not emit one window event and one status event at t0. -/
theorem c2_counterexample :
    (processModel (c2Input 0)).1 = [] ∧ (processModel (c2Input 0)).2 = some Err.noFirstTs := by
  exact ⟨rfl, rfl⟩

/-- C2 (amended): on the end-to-end scenario input (for every t0) the run
fails while computing the sweep start — the empty web series has no
first timestamp, so the minimum over first timestamps is undefined — and
emits nothing; in particular no window event and no status event. -/
theorem c2_run_aborts (t0 : Int) :
    processModel (c2Input t0) = ([], some Err.noFirstTs) := rfl

theorem prepareActions_no_insert :
    ∀ (bs : List (String × String)) (a : Action), a ∈ prepareActions bs →
      ∀ b ev, a ≠ Action.insertEvent b ev := by
  intro bs
  induction bs with
  | nil => intro a ha; exact absurd ha (by simp [prepareActions])
  | cons p rest ih =>
    intro a ha b ev
    obtain ⟨id, ty⟩ := p
    simp only [prepareActions, List.mem_cons] at ha
    rcases ha with rfl | rfl | ha
    · simp
    · simp
    · exact ih a ha b ev

/-- C8: when, after filtering source buckets to the aw-watcher- ids with
matching hostname and mapping web-chrome to web, any of the three roles
window/afk/web is absent, the run fails with the missing-role assertion
and no destination action at all is issued — in particular nothing is
deleted or recreated. -/
theorem c8_missing_role_no_destruction (i : Input) (data : RoleData)
    (hload : loadRaw i.srcHostname i.srcBuckets [] = .ok data)
    (hmiss : ¬(hasRole data "window" = true ∧ hasRole data "afk" = true ∧
               hasRole data "web" = true)) :
    processModel i = ([], some Err.missingRole) := by
  have hcond : (hasRole data "window" && hasRole data "afk" && hasRole data "web") = false := by
    rw [Bool.eq_false_iff]
    intro hc
    exact hmiss (by simpa [Bool.and_eq_true, and_assoc] using hc)
  have hla : loadAll i.srcHostname i.srcBuckets = .error Err.missingRole := by
    unfold loadAll
    rw [hload]
    simp [hcond]
  unfold processModel
  rw [hla]

def c8Input : Input :=
  ⟨"h", "h", [("aw-watcher-window_h", []), ("aw-watcher-afk_h", [])], [("b1", "t1")]⟩

theorem c8_missing_role_no_destruction_witness :
    processModel c8Input = ([], some Err.missingRole) :=
  c8_missing_role_no_destruction c8Input
    [("window", ⟨[], 0⟩), ("afk", ⟨[], 0⟩)] rfl (by decide)

theorem firstTsList_none :
    ∀ (data : RoleData) (p : String × BucketData), p ∈ data →
      getFirstTs p.2 = none → firstTsList data = none := by
  intro data
  induction data with
  | nil => intro p hp; exact absurd hp (by simp)
  | cons q rest ih =>
    intro p hp hnone
    rcases List.mem_cons.mp hp with rfl | hp
    · simp [firstTsList, hnone]
    · have := ih p hp hnone
      simp only [firstTsList, this]
      cases getFirstTs q.2 <;> rfl

/-- C9: with all three roles present but some loaded series empty, the
run aborts while computing the sweep start (the minimum over first
timestamps is undefined because an empty series has no first timestamp),
after the destination buckets have already been wiped and recreated: the
trace is exactly the destructive prepare actions, which contain no
inserted events — no sweep output, but the reset has occurred. -/
theorem c9_empty_series_after_wipe (i : Input) (data : RoleData)
    (hload : loadAll i.srcHostname i.srcBuckets = .ok data)
    (p : String × BucketData) (hp : p ∈ data) (hempty : p.2.events = []) :
    processModel i = (prepareActions i.dstBuckets, some Err.noFirstTs) ∧
    (∀ a ∈ prepareActions i.dstBuckets, ∀ b ev, a ≠ Action.insertEvent b ev) := by
  have hfirst : getFirstTs p.2 = none := by
    unfold getFirstTs
    rw [hempty]
    rfl
  have hmin : minFirstTs data = none := by
    unfold minFirstTs
    rw [firstTsList_none data p hp hfirst]
  refine ⟨?_, prepareActions_no_insert i.dstBuckets⟩
  unfold processModel
  rw [hload]
  simp [hmin]

def c9Input : Input :=
  ⟨"h", "h",
   [("aw-watcher-window_h", [c2WindowEvent 0]),
    ("aw-watcher-afk_h", [c2AfkEvent 0]),
    ("aw-watcher-web-chrome_h", [])],
   [("b1", "t1")]⟩

def c9Data : RoleData :=
  [("window", ⟨[c2WindowEvent 0], 0⟩),
   ("afk", ⟨[c2AfkEvent 0], 0⟩),
   ("web", ⟨[], 0⟩)]

theorem c9_empty_series_after_wipe_witness :
    processModel c9Input = (prepareActions c9Input.dstBuckets, some Err.noFirstTs) ∧
    (∀ a ∈ prepareActions c9Input.dstBuckets, ∀ b ev, a ≠ Action.insertEvent b ev) :=
  c9_empty_series_after_wipe c9Input c9Data rfl ("web", ⟨[], 0⟩) (by decide) rfl

/-! ## Claim C4: the emitted window intervals never overlap -/

/-- The events inserted into the given (window) destination bucket. -/
def winEventsOf (dstW : String) (acts : List Action) : List Event :=
  acts.filterMap (fun a =>
    match a with
    | .insertEvent b ev => if b == dstW then some ev else none
    | _ => none)

/-- Sweep invariant: the window inserts so far are chained (each ends at
or before the next starts) with positive durations; the current interval
(when present) starts at or after every emitted end, has non-negative
duration and ends at or before the next sweep second `t`; without a
current interval every emitted end is at or before `t`. -/
def EmitInv (dstW : String) (acts : List Action) (cur : Option Event) (t : Int) : Prop :=
  (winEventsOf dstW acts).Pairwise (fun e1 e2 => e1.timestamp + e1.duration ≤ e2.timestamp) ∧
  (∀ e ∈ winEventsOf dstW acts, 0 < e.duration) ∧
  (match cur with
   | some c => (∀ e ∈ winEventsOf dstW acts, e.timestamp + e.duration ≤ c.timestamp) ∧
       0 ≤ c.duration ∧ c.timestamp + c.duration ≤ t
   | none => ∀ e ∈ winEventsOf dstW acts, e.timestamp + e.duration ≤ t)

theorem winEventsOf_append (dstW : String) (l1 l2 : List Action) :
    winEventsOf dstW (l1 ++ l2) = winEventsOf dstW l1 ++ winEventsOf dstW l2 :=
  List.filterMap_append l1 l2 _

theorem emitInv_mono (dstW : String) (acts : List Action) (cur : Option Event)
    {t t' : Int} (h : EmitInv dstW acts cur t) (htt : t ≤ t') :
    EmitInv dstW acts cur t' := by
  obtain ⟨hpw, hdur, hcur⟩ := h
  refine ⟨hpw, hdur, ?_⟩
  cases cur with
  | none => exact fun e he => le_trans (hcur e he) htt
  | some c => exact ⟨hcur.1, hcur.2.1, le_trans hcur.2.2 htt⟩

/-- After a step at second `t`, the freshly started (or absent) interval
satisfies the invariant for `t + 1`. -/
theorem emitInv_start (dstW : String) (acts : List Action) (t : Int)
    (hpw : (winEventsOf dstW acts).Pairwise
      (fun e1 e2 => e1.timestamp + e1.duration ≤ e2.timestamp))
    (hdur : ∀ e ∈ winEventsOf dstW acts, 0 < e.duration)
    (hend : ∀ e ∈ winEventsOf dstW acts, e.timestamp + e.duration ≤ t)
    (app title : Option String) :
    EmitInv dstW acts
      (if app.isSome then some ⟨t, 0, { app := app, title := title }⟩ else none) (t + 1) := by
  by_cases happ : app.isSome
  · rw [if_pos happ]
    refine ⟨hpw, hdur, hend, ?_, ?_⟩
    · show (0 : Int) ≤ (0 : Int)
      omega
    · show t + (0 : Int) ≤ t + 1
      omega
  · rw [if_neg happ]
    exact ⟨hpw, hdur, fun e he => le_trans (hend e he) (by omega)⟩

theorem updateEvent_preserves (dstW dstA : String) (hne : (dstA == dstW) = false)
    (acts : List Action) (cur : Option Event) (app title : Option String) (t : Int)
    (hinv : EmitInv dstW acts cur t) :
    EmitInv dstW (acts ++ (updateEvent dstW dstA cur app title t).2)
      (updateEvent dstW dstA cur app title t).1 (t + 1) := by
  obtain ⟨hpw, hdur, hcur⟩ := hinv
  cases cur with
  | none =>
    simp only [updateEvent, List.append_nil]
    exact emitInv_start dstW acts t hpw hdur hcur app title
  | some c =>
    obtain ⟨hend, hd0, hct⟩ := hcur
    by_cases hmatch : (app.isSome && (c.data.app == app) && (c.data.title == title)) = true
    · simp only [updateEvent, hmatch, if_true, List.append_nil]
      refine ⟨hpw, hdur, hend, ?_, ?_⟩
      · show (0 : Int) ≤ t - c.timestamp
        omega
      · show c.timestamp + (t - c.timestamp) ≤ t + 1
        omega
    · rw [Bool.not_eq_true] at hmatch
      simp only [updateEvent, hmatch, Bool.false_eq_true, if_false]
      by_cases hcd : c.duration > 0
      · rw [if_pos hcd]
        have hwins : winEventsOf dstW (acts ++
            [Action.insertEvent dstW c,
             Action.insertEvent dstA
               { c with data := { c.data with status := some "not-afk" } }]) =
            winEventsOf dstW acts ++ [c] := by
          rw [winEventsOf_append]
          have hnee : dstA ≠ dstW := beq_eq_false_iff_ne.mp hne
          simp [winEventsOf, hnee]
        have hend' : ∀ e ∈ winEventsOf dstW acts ++ [c], e.timestamp + e.duration ≤ t := by
          intro e he
          rcases List.mem_append.mp he with he | he
          · have := hend e he; omega
          · have : e = c := by simpa using he
            subst this; omega
        have hpw' : (winEventsOf dstW acts ++ [c]).Pairwise
            (fun e1 e2 => e1.timestamp + e1.duration ≤ e2.timestamp) := by
          rw [List.pairwise_append]
          refine ⟨hpw, by simp, ?_⟩
          intro e he e' he'
          have : e' = c := by simpa using he'
          subst this
          exact hend e he
        have hdur' : ∀ e ∈ winEventsOf dstW acts ++ [c], 0 < e.duration := by
          intro e he
          rcases List.mem_append.mp he with he | he
          · exact hdur e he
          · have : e = c := by simpa using he
            subst this; exact hcd
        have := emitInv_start dstW (acts ++
            [Action.insertEvent dstW c,
             Action.insertEvent dstA
               { c with data := { c.data with status := some "not-afk" } }]) t
            (by rw [hwins]; exact hpw') (by rw [hwins]; exact hdur')
            (by rw [hwins]; exact hend') app title
        exact this
      · rw [if_neg hcd]
        simp only [List.append_nil]
        have hend'' : ∀ e ∈ winEventsOf dstW acts, e.timestamp + e.duration ≤ t := by
          intro e he
          have := hend e he
          omega
        exact emitInv_start dstW acts t hpw hdur hend'' app title

theorem stepCore_preserves (dstW dstA : String) (hne : (dstA == dstW) = false)
    (acts : List Action) (t : Int) (evW evWeb evAfk cur : Option Event)
    (hinv : EmitInv dstW acts cur t) :
    EmitInv dstW (acts ++ (stepCore dstW dstA t evW evWeb evAfk cur).2.1)
      (stepCore dstW dstA t evW evWeb evAfk cur).1 (t + 1) := by
  unfold stepCore
  by_cases hidle : (computeIsAfk evAfk evWeb || evW.isNone) = true
  · simp only [hidle, if_true]
    exact updateEvent_preserves dstW dstA hne acts cur none none t hinv
  · rw [Bool.not_eq_true] at hidle
    simp only [hidle, Bool.false_eq_true, if_false]
    cases evW with
    | none =>
      simp only [List.append_nil]
      exact emitInv_mono dstW acts cur hinv (by omega)
    | some evWn =>
      cases hder : deriveNormalize evWn evWeb with
      | error e =>
        simp only [hder, List.append_nil]
        exact emitInv_mono dstW acts cur hinv (by omega)
      | ok p =>
        obtain ⟨app, title⟩ := p
        simp only [hder]
        exact updateEvent_preserves dstW dstA hne acts cur app title t hinv

theorem sweepStep_preserves (dstW dstA : String) (hne : (dstA == dstW) = false)
    (t : Int) (s : SweepSt) (hinv : EmitInv dstW s.out s.cur t) :
    EmitInv dstW (sweepStep dstW dstA t s).out (sweepStep dstW dstA t s).cur (t + 1) :=
  stepCore_preserves dstW dstA hne s.out t
    (getByTimestamp s.window t true).1 (getByTimestamp s.web t false).1
    (getByTimestamp s.afk t true).1 s.cur hinv

theorem sweepLoop_inv (dstW dstA : String) (hne : (dstA == dstW) = false) (firstTs : Int) :
    ∀ (n s0 : Nat) (st : SweepSt),
      EmitInv dstW st.out st.cur (firstTs + (s0 : Int)) →
      EmitInv dstW (sweepLoop dstW dstA firstTs (List.range' s0 n) st).out
        (sweepLoop dstW dstA firstTs (List.range' s0 n) st).cur
        (firstTs + (s0 : Int) + (n : Int)) := by
  intro n
  induction n with
  | zero =>
    intro s0 st h
    exact emitInv_mono dstW st.out st.cur h (by norm_num)
  | succ n ih =>
    intro s0 st h
    have hr : List.range' s0 (n + 1) = s0 :: List.range' (s0 + 1) n := rfl
    rw [hr]
    simp only [sweepLoop]
    by_cases herr : st.err.isSome = true
    · rw [if_pos herr]
      exact emitInv_mono dstW st.out st.cur h (by push_cast; omega)
    · rw [if_neg herr]
      have hstep := sweepStep_preserves dstW dstA hne (firstTs + (s0 : Int)) st h
      have hc : firstTs + ((s0 + 1 : Nat) : Int) = firstTs + (s0 : Int) + 1 := by
        push_cast; ring
      have hst2 : EmitInv dstW (sweepStep dstW dstA (firstTs + (s0 : Int)) st).out
          (sweepStep dstW dstA (firstTs + (s0 : Int)) st).cur
          (firstTs + ((s0 + 1 : Nat) : Int)) := by
        rw [hc]; exact hstep
      have hgoal : firstTs + (s0 : Int) + ((n + 1 : Nat) : Int) =
          firstTs + ((s0 + 1 : Nat) : Int) + (n : Int) := by
        push_cast; ring
      rw [hgoal]
      exact ih (s0 + 1) (sweepStep dstW dstA (firstTs + (s0 : Int)) st) hst2

theorem winEventsOf_prepare (dstW : String) :
    ∀ bs : List (String × String), winEventsOf dstW (prepareActions bs) = [] := by
  intro bs
  induction bs with
  | nil => rfl
  | cons p rest ih =>
    obtain ⟨id, ty⟩ := p
    simp only [prepareActions, winEventsOf, List.filterMap_cons]
    exact ih

theorem dstAfk_ne_dstWindow (i : Input) :
    (dstAfkBucket i == dstWindowBucket i) = false := by
  rw [beq_eq_false_iff_ne]
  intro h
  have hlen : (dstAfkBucket i).length = (dstWindowBucket i).length := by rw [h]
  unfold dstAfkBucket dstWindowBucket at hlen
  rw [String.length_append, String.length_append] at hlen
  have h1 : ("aw-watcher-afk_" : String).length = 15 := rfl
  have h2 : ("aw-watcher-window_" : String).length = 18 := rfl
  omega

/-- C4: in every run, any two events inserted into the destination window
bucket have disjoint half-open intervals [timestamp, timestamp + duration),
and in emission order their timestamps strictly increase. -/
theorem c4_no_overlap (i : Input) :
    (winEventsOf (dstWindowBucket i) (processModel i).1).Pairwise
      (fun e1 e2 => (e1.timestamp + e1.duration ≤ e2.timestamp ∨
                     e2.timestamp + e2.duration ≤ e1.timestamp) ∧
                    e1.timestamp < e2.timestamp) := by
  have hne := dstAfk_ne_dstWindow i
  unfold processModel
  cases hload : loadAll i.srcHostname i.srcBuckets with
  | error e => simp [winEventsOf]
  | ok data =>
    dsimp only
    cases hmin : minFirstTs data with
    | none => simp [winEventsOf_prepare]
    | some firstTs =>
      dsimp only
      cases hmax : maxTotalDuration data with
      | none => simp [winEventsOf_prepare]
      | some total =>
        dsimp only
        set st0 : SweepSt := { window := findBucket data "window",
                               afk := findBucket data "afk",
                               web := findBucket data "web",
                               cur := none, out := [], err := none } with hst0
        have h0 : EmitInv (dstWindowBucket i) st0.out st0.cur (firstTs + ((0 : Nat) : Int)) := by
          refine ⟨by simp [hst0, winEventsOf], by simp [hst0, winEventsOf], ?_⟩
          simp [hst0, winEventsOf]
        have hfin := sweepLoop_inv (dstWindowBucket i) (dstAfkBucket i) hne firstTs
          total.toNat 0 st0 h0
        rw [← List.range_eq_range'] at hfin
        obtain ⟨hpw, hdur, _⟩ := hfin
        rw [winEventsOf_append, winEventsOf_prepare]
        simp only [List.nil_append]
        refine List.Pairwise.imp_of_mem ?_ hpw
        intro e1 e2 h1 h2 hle
        have hd1 := hdur e1 h1
        exact ⟨Or.inl hle, by omega⟩

end Update
